import Mathlib

/-!
# Verification of the opensea-price-notification monitor

A shallow embedding of the three modules of the repository
(`opensea.py`, `telegram.py`, `main.py`) and proofs about their behaviour.

Strings are modelled as `List Char`.  Python floats are modelled as exact
rationals (`ℚ`); the spec grants floating-point tolerance, and every numeric
literal handled by the program is a short decimal, so the rational model is
exact where the float is.  I/O (browser scraping, message delivery, the
state file, environment variables) is modelled by explicit parameters:
an attempt oracle for the scraper, a `deliver` function for the chat
transport, an algebraic `FileState` for the persisted file and an `Env`
record for the environment.  A Python exception escaping a modelled
function is represented by `Option`/`none`.
-/

/-- Strings of the embedded program. -/
abbrev Str := List Char

/-! ## Python string and number primitives used by the sources -/

/-- ASCII whitespace as recognised by Python `str.split()` / `str.strip()`
(the model is restricted to the ASCII whitespace characters). -/
def isPySpace (c : Char) : Bool :=
  c == ' ' || c == '\t' || c == '\n' || c == '\r' || c == '\x0b' || c == '\x0c'

/-- Decimal digit characters. -/
def isPyDigit (c : Char) : Bool :=
  ['0', '1', '2', '3', '4', '5', '6', '7', '8', '9'].contains c

/-- Numeric value of a digit character. -/
def digitVal (c : Char) : ℕ := c.toNat - 48

/-- Accumulating value of a list of digit characters, most significant first. -/
def digitsValAux (acc : ℕ) : Str → ℕ
  | [] => acc
  | c :: r => digitsValAux (10 * acc + digitVal c) r

/-- Value of a list of digit characters, most significant first. -/
def digitsVal (s : Str) : ℕ := digitsValAux 0 s

/-- Python `str.strip()` (ASCII whitespace model): drop leading and trailing
whitespace. -/
def stripWs (s : Str) : Str :=
  ((s.dropWhile isPySpace).reverse.dropWhile isPySpace).reverse

/-- Worker for `pySplit`: `cur` is the (reversed) token currently being read. -/
def pySplitAux (cur : Str) : Str → List Str
  | [] => if cur.isEmpty then [] else [cur.reverse]
  | c :: rest =>
      if isPySpace c then
        if cur.isEmpty then pySplitAux [] rest else cur.reverse :: pySplitAux [] rest
      else
        pySplitAux (c :: cur) rest

/-- Python `str.split()` with no arguments: split on runs of whitespace,
discarding empty tokens. -/
def pySplit (s : Str) : List Str := pySplitAux [] s

/-- `s.replace(',', '.')` from `_parse_price_string`. -/
def replaceComma (s : Str) : Str :=
  s.map (fun c => if c = ',' then '.' else c)

/-- Split a string at the first character satisfying `p`: returns the prefix
before it and, when found, the remainder after it. -/
def splitOnceP (p : Char → Bool) : Str → Str × Option Str
  | [] => ([], none)
  | c :: rest =>
      if p c then ([], some rest)
      else
        let q := splitOnceP p rest
        (c :: q.1, q.2)

/-- Optional leading sign of a numeric literal; returns the sign as a rational
(+1 or -1) and the remaining characters. -/
def stripSign (s : Str) : ℚ × Str :=
  match s with
  | [] => (1, [])
  | c :: r => if c = '+' then (1, r) else if c = '-' then ((-1 : ℚ), r) else (1, s)

/-- Python `int(·)` body after stripping: optional sign followed by a nonempty
run of digits (numeric-literal underscores are not modelled). -/
def parseSignedInt (s : Str) : Option ℤ :=
  let sg := stripSign s
  if sg.2 ≠ [] ∧ sg.2.all isPyDigit then some ((sg.1.num) * (digitsVal sg.2 : ℤ)) else none

/-- Python `int(str)`. -/
def pyIntOfStr (s : Str) : Option ℤ := parseSignedInt (stripWs s)

/-- Unsigned decimal mantissa of a Python float literal: `digits`, `digits.`,
`.digits` or `digits.digits` (at least one digit overall, no second dot). -/
def parseUDec (s : Str) : Option ℚ :=
  match splitOnceP (fun c => c == '.') s with
  | (ip, none) =>
      if ip ≠ [] ∧ ip.all isPyDigit then some ((digitsVal ip : ℚ)) else none
  | (ip, some fp) =>
      if (ip ≠ [] ∨ fp ≠ []) ∧ ip.all isPyDigit ∧ fp.all isPyDigit ∧ ¬ '.' ∈ fp then
        some ((digitsVal ip : ℚ) + (digitsVal fp : ℚ) / 10 ^ fp.length)
      else none

/-- Model of Python `float(str)`: strip whitespace, optional sign, decimal
mantissa with optional `e`/`E` exponent.  The special values `inf`, `nan`,
`infinity` and numeric-literal underscores are outside the rational model and
are treated as non-numeric; none of them occurs in a marketplace display
string. -/
def pyFloat (s : Str) : Option ℚ :=
  match splitOnceP (fun c => c == 'e' || c == 'E') (stripSign (stripWs s)).2 with
  | (mant, none) => (parseUDec mant).map (fun q => (stripSign (stripWs s)).1 * q)
  | (mant, some ex) => do
      let m ← parseUDec mant
      let e ← parseSignedInt ex
      some ((stripSign (stripWs s)).1 * m * (10 : ℚ) ^ e)

/-- Decimal digits of a natural number, most significant first. -/
def natDigits (n : ℕ) : Str :=
  if _ : n < 10 then [Nat.digitChar n]
  else natDigits (n / 10) ++ [Nat.digitChar (n % 10)]
  termination_by n
  decreasing_by exact Nat.div_lt_self (by omega) (by omega)

/-- Fractional decimal digits of `r` (`0 ≤ r < 1` intended), extracted by
repeated multiplication by 10, stopping at remainder zero; `fuel` bounds the
number of digits. -/
def fracAux : ℕ → ℚ → Str
  | 0, _ => []
  | fuel + 1, r =>
      if r = 0 then []
      else Nat.digitChar (⌊10 * r⌋).toNat :: fracAux fuel (10 * r - (⌊10 * r⌋ : ℚ))

/-- Fractional digits of a rational with terminating decimal expansion (the
denominator of such an `r` bounds the number of digits). -/
def fracDigits (r : ℚ) : Str := fracAux r.den r

/-- Model of Python `str(float)` for the magnitudes this program handles:
sign, integer digits, a dot, then the fractional digits (or `0` when the value
is integral, as Python prints `5.0`).  Python switches to scientific notation
for magnitudes below 1e-4 or at/above 1e16 and prints shortest-roundtrip
digits; for terminating short decimals the two renderings denote the same
value, which is all the round-trip property needs. -/
def pyStrFloat (q : ℚ) : Str :=
  if q < 0 then '-' :: pyStrFloat (-q)
  else natDigits (⌊q⌋).toNat ++ '.' ::
    (if (fracDigits (q - (⌊q⌋ : ℚ))).isEmpty then ['0'] else fracDigits (q - (⌊q⌋ : ℚ)))
  termination_by (if q < 0 then 1 else 0)
  decreasing_by simp_all; linarith

/-! ## `opensea.py` -/

/-- The `N/A` sentinel of `_get_element_text` / `_parse_price_string`. -/
def nASentinel : Str := "N/A".toList

/-- The `UNKNOWN` currency sentinel. -/
def unknownCurrency : Str := "UNKNOWN".toList

/-- A parsed price: `(price as float, currency as string)`. -/
abbrev Price := ℚ × Str

/-- `OpenSeaService._parse_price_string`: `"N/A"` and any string that does not
split into exactly two tokens, or whose first token (after replacing `,` by
`.`) is not a float literal, yield `(0.0, "UNKNOWN")`; the `try`/`except`
around the body makes the function total. -/
def parse_price_string (price_string : Str) : Price :=
  if price_string = nASentinel then (0, unknownCurrency)
  else
    match pySplit price_string with
    | [p0, p1] =>
        match pyFloat (replaceComma p0) with
        | some price => (price, p1)
        | none => (0, unknownCurrency)
    | _ => (0, unknownCurrency)

/-- `self._config['max_retries']`. -/
def max_retries : ℕ := 5

/-- Result dictionary of `_try_get_prices`. -/
structure PriceResult where
  floor_price : Price
  best_offer : Price
  deriving DecidableEq

/-- Outcome of one `_try_get_prices` call: it raises, returns a falsy value,
or returns a parsed pair. -/
inductive AttemptOutcome where
  | raises
  | empty
  | ok (r : PriceResult)

/-- A price the retry loop rejects: `UNKNOWN` currency or zero magnitude. -/
def degenerate (p : Price) : Bool :=
  p.2 == unknownCurrency || p.1 == 0

/-- The retry loop of `get_collection_prices`, one constructor case per
branch of the loop body; `fuel` counts the remaining attempts and `i` is the
current attempt index into the oracle. -/
def gcpAux (attempts : ℕ → AttemptOutcome) : ℕ → ℕ → Option PriceResult
  | 0, _ => none
  | fuel + 1, i =>
      match attempts i with
      | .raises => gcpAux attempts fuel (i + 1)
      | .empty => gcpAux attempts fuel (i + 1)
      | .ok r =>
          if r.floor_price.2 = unknownCurrency ∨ r.best_offer.2 = unknownCurrency then
            gcpAux attempts fuel (i + 1)
          else if r.floor_price.1 = 0 ∨ r.best_offer.1 = 0 then
            gcpAux attempts fuel (i + 1)
          else some r

/-- `OpenSeaService.get_collection_prices`, with the scraping attempts
abstracted into an oracle giving the outcome of each `_try_get_prices`
call. -/
def get_collection_prices (attempts : ℕ → AttemptOutcome) : Option PriceResult :=
  gcpAux attempts max_retries 0

/-! ## JSON values and the persisted state file (`memory.json`) -/

/-- JSON values, as produced by `json.load`.  Objects are association lists in
file order (the JSON text written by this program never repeats a key). -/
inductive JVal where
  | null
  | bool (b : Bool)
  | num (q : ℚ)
  | str (s : Str)
  | arr (xs : List JVal)
  | obj (kvs : List (Str × JVal))

/-- Python dict lookup on an association list built in insertion order
(later duplicates override earlier ones, as in `json.load`). -/
def dictGet (kvs : List (Str × JVal)) (k : Str) : Option JVal :=
  kvs.foldl (fun acc kv => if kv.1 = k then some kv.2 else acc) none

/-- `d[k]` subscription: `none` models the `KeyError`/`TypeError` raised when
the key is missing or the value is not a dict. -/
def getItem (j : JVal) (k : Str) : Option JVal :=
  match j with
  | .obj kvs => dictGet kvs k
  | _ => none

/-- Python truthiness of a JSON value (`not x`). -/
def jFalsy (j : JVal) : Bool :=
  match j with
  | .null => true
  | .bool b => !b
  | .num q => q == 0
  | .str s => s.isEmpty
  | .arr xs => xs.isEmpty
  | .obj kvs => kvs.isEmpty

/-- Python `==` between a string and a JSON value (a string never equals a
value of another type). -/
def pyEqStr (s : Str) (j : JVal) : Bool :=
  match j with
  | .str t => s == t
  | _ => false

/-- `x.split()` on a JSON value: only strings have `split`; `none` models the
`AttributeError` raised otherwise. -/
def jAsStr (j : JVal) : Option Str :=
  match j with
  | .str s => some s
  | _ => none

/-- The two keys of a price snapshot. -/
def floorKey : Str := "floor_price".toList

/-- The second snapshot key. -/
def offerKey : Str := "best_offer".toList

/-- A price snapshot as handled by `main.py`: the two display strings built in
`check_prices`. -/
structure Snapshot where
  floor_price : Str
  best_offer : Str
  deriving DecidableEq

/-- The dict `{'floor_price': ..., 'best_offer': ...}` of display strings, as
built by `check_prices` and serialised by `_save_memory`. -/
def snapJson (s : Snapshot) : JVal :=
  .obj [(floorKey, .str s.floor_price), (offerKey, .str s.best_offer)]

/-- The states of `memory.json` distinguished by `_load_memory`: absent
(`FileNotFoundError`), undecodable (`json.JSONDecodeError`), or holding some
well-formed JSON document. -/
inductive FileState where
  | missing
  | malformed
  | valid (j : JVal)

/-- The fallback snapshot of `_load_memory`. -/
def defaultPrices : JVal :=
  snapJson ⟨"0 ETH".toList, "0 ETH".toList⟩

/-- `PriceMonitor._load_memory`: parse the file, fall back to the default on
`FileNotFoundError` or `json.JSONDecodeError`; whatever `json.load` returns is
handed back unexamined. -/
def load_memory (fs : FileState) : JVal :=
  match fs with
  | .missing => defaultPrices
  | .malformed => defaultPrices
  | .valid j => j

/-- The spec's PriceSnapshot shape: a mapping with exactly the two keys
`floor_price` and `best_offer`, each holding a display string. -/
def isSnapshotJson (j : JVal) : Bool :=
  match j with
  | .obj [(k1, .str _), (k2, .str _)] =>
      (k1 == floorKey && k2 == offerKey) || (k1 == offerKey && k2 == floorKey)
  | _ => false

/-! ## `telegram.py` -/

/-- The environment variables the program reads (`os.getenv` returns `None`
for an absent variable). -/
structure Env where
  telegram_bot_token : Option Str
  telegram_channel_id : Option Str
  opensea_collection_slug : Option Str
  check_interval : Option Str

/-- Python falsiness of an `os.getenv` result. -/
def falsyOptStr (v : Option Str) : Bool :=
  match v with
  | none => true
  | some s => s.isEmpty

/-- The guard of `TelegramService.__init__`:
`not self.bot_token or not self.channel_id`. -/
def creds_missing (e : Env) : Bool :=
  falsyOptStr e.telegram_bot_token || falsyOptStr e.telegram_channel_id

/-- `f"<b>{s}</b>"`. -/
def bold (s : Str) : Str :=
  "<b>".toList ++ s ++ "</b>".toList

/-- Python `str.upper()` (ASCII model). -/
def upperStr (s : Str) : Str := s.map Char.toUpper

/-- The inner `format_change` of `send_price_update`.  `old_price` is whatever
`old_prices[...]` held (an arbitrary JSON value when the state file was
tampered with).  `none` models an exception escaping: an `IndexError` from
`split()[0]`, a `ValueError` from `float`, or an `AttributeError` when
`old_price` is not a string. -/
def format_change (new_price : Str) (old_price : JVal) : Option Str :=
  if jFalsy old_price || pyEqStr new_price old_price then
    some (bold new_price)
  else do
    let t0 ← (pySplit new_price).head?
    let new_val ← pyFloat t0
    let os ← jAsStr old_price
    let t1 ← (pySplit os).head?
    let old_val ← pyFloat t1
    if old_val < new_val then some (bold new_price ++ " +".toList)
    else some (bold new_price ++ " -".toList)

/-- The module-level `send_price_update` wrapper: construct a fresh
`TelegramService` (raising when a credential is missing — modelled by `none`),
format the two fields, compose the message and hand it to the transport.
`deliver` models `Bot.send_message`, whose wrapper `send_message` catches every
exception and returns a boolean. -/
def send_price_update (env : Env) (collection floor_price best_offer : Str)
    (old_prices : Option JVal) (deliver : Str → Bool) : Option Bool :=
  if creds_missing env then none
  else do
    let floor_display ←
      match old_prices with
      | some o => do
          let ov ← getItem o floorKey
          format_change floor_price ov
      | none => some (bold floor_price)
    let best_offer_display ←
      match old_prices with
      | some o => do
          let ov ← getItem o offerKey
          format_change best_offer ov
      | none => some (bold best_offer)
    let message :=
      bold (upperStr collection) ++ " Update\n\nFloor Price: ".toList ++ floor_display ++
        "\nBest Offer: ".toList ++ best_offer_display
    some (deliver message)

/-! ## `main.py` -/

/-- The configuration read by `PriceMonitor._load_config`. -/
structure Config where
  collection_slug : Str
  check_interval : ℤ

/-- `PriceMonitor._load_config`: slug defaults to `"hypio"`; the poll interval
defaults to 300 and otherwise passes through `int(...)`, whose `ValueError`
(modelled by `none`) would escape `__init__`. -/
def load_config (e : Env) : Option Config := do
  let slug := match e.opensea_collection_slug with
    | none => "hypio".toList
    | some s => s
  let interval ← match e.check_interval with
    | none => some (300 : ℤ)
    | some s => pyIntOfStr s
  some ⟨slug, interval⟩

/-- The mutable state of the monitor process: the persisted file and the
fields of `PriceMonitor`. -/
structure MonState where
  collection_slug : Str
  file : FileState
  last_prices : JVal

/-- `PriceMonitor.__init__`: configure, then load `memory.json`.  No
credential is read here — `TelegramService` is only constructed inside
`send_price_update`. -/
def price_monitor_init (e : Env) (fs : FileState) : Option MonState :=
  (load_config e).map fun cfg => ⟨cfg.collection_slug, fs, load_memory fs⟩

/-- `PriceMonitor._save_memory`: overwrite the file with the serialised
snapshot dict. -/
def save_memory (st : MonState) (prices : Snapshot) : MonState :=
  { st with file := .valid (snapJson prices) }

/-- `PriceMonitor._format_price`: `f"{price} {currency}"`. -/
def format_price (price_tuple : Price) : Str :=
  pyStrFloat price_tuple.1 ++ ' ' :: price_tuple.2

/-- `PriceMonitor._prices_changed`: short-circuit `or` of the two textual
inequalities; `none` models the `KeyError`/`TypeError` when `last_prices` is
not a dict with the two keys. -/
def prices_changed (new_prices : Snapshot) (last_prices : JVal) : Option Bool := do
  let lf ← getItem last_prices floorKey
  if pyEqStr new_prices.floor_price lf then do
    let lb ← getItem last_prices offerKey
    some (!(pyEqStr new_prices.best_offer lb))
  else
    some true

/-- What one iteration of `PriceMonitor.run` did: whether `send_price_update`
was called, whether it returned `True`, whether `_save_memory` ran, whether an
exception was caught by the iteration's `except`, and the state afterwards. -/
structure CycleResult where
  notify_attempted : Bool
  delivered : Bool
  saved : Bool
  raised : Bool
  state : MonState

/-- One iteration of the `while True` loop of `PriceMonitor.run`, given the
formatted result of `check_prices` (`none` when the fetch failed) and the
transport.  Any exception in the body is caught at the iteration boundary and
only recorded (`raised`); the iteration then falls through to the sleep. -/
def run_cycle (env : Env) (deliver : Str → Bool) (current_prices : Option Snapshot)
    (st : MonState) : CycleResult :=
  match current_prices with
  | none => ⟨false, false, false, false, st⟩
  | some cur =>
      match prices_changed cur st.last_prices with
      | none => ⟨false, false, false, true, st⟩
      | some false => ⟨false, false, false, false, st⟩
      | some true =>
          match send_price_update env st.collection_slug cur.floor_price cur.best_offer
              (some st.last_prices) deliver with
          | none => ⟨true, false, false, true, st⟩
          | some false => ⟨true, false, false, false, st⟩
          | some true =>
              ⟨true, true, true, false,
                { save_memory st cur with last_prices := snapJson cur }⟩

/-! ## Helper lemmas -/

/-- An attempt outcome the retry loop rejects (it raised, returned nothing, or
returned a pair with a degenerate component). -/
def rejectedAttempt (o : AttemptOutcome) : Prop :=
  o = .raises ∨ o = .empty ∨
    ∃ r, o = .ok r ∧ (degenerate r.floor_price = true ∨ degenerate r.best_offer = true)

theorem gcpAux_eq_none (attempts : ℕ → AttemptOutcome) :
    ∀ fuel i, (∀ j, i ≤ j → j < i + fuel → rejectedAttempt (attempts j)) →
      gcpAux attempts fuel i = none := by
  intro fuel
  induction fuel with
  | zero => intro i _; rfl
  | succ n ih =>
      intro i h
      have hi : rejectedAttempt (attempts i) := h i le_rfl (by omega)
      have hrest : ∀ j, i + 1 ≤ j → j < (i + 1) + n → rejectedAttempt (attempts j) := by
        intro j h1 h2; exact h j (by omega) (by omega)
      rcases hi with hr | hr | ⟨r, hr, hdeg⟩
      · rw [gcpAux, hr]; exact ih (i + 1) hrest
      · rw [gcpAux, hr]; exact ih (i + 1) hrest
      · rw [gcpAux, hr]; dsimp only
        by_cases h1 : r.floor_price.2 = unknownCurrency ∨ r.best_offer.2 = unknownCurrency
        · rw [if_pos h1]; exact ih (i + 1) hrest
        · by_cases h2 : r.floor_price.1 = 0 ∨ r.best_offer.1 = 0
          · rw [if_neg h1, if_pos h2]; exact ih (i + 1) hrest
          · exfalso
            rcases hdeg with hd | hd <;>
              simp only [degenerate, Bool.or_eq_true, beq_iff_eq] at hd <;> tauto

theorem gcpAux_eq_some (attempts : ℕ → AttemptOutcome) :
    ∀ fuel i r, gcpAux attempts fuel i = some r →
      degenerate r.floor_price = false ∧ degenerate r.best_offer = false := by
  intro fuel
  induction fuel with
  | zero => intro i r h; exact absurd h (by simp [gcpAux])
  | succ n ih =>
      intro i r h
      rw [gcpAux] at h
      rcases ho : attempts i with _ | _ | r'
      all_goals rw [ho] at h
      all_goals dsimp only at h
      · exact ih (i + 1) r h
      · exact ih (i + 1) r h
      · by_cases h1 : r'.floor_price.2 = unknownCurrency ∨ r'.best_offer.2 = unknownCurrency
        · rw [if_pos h1] at h; exact ih (i + 1) r h
        · rw [if_neg h1] at h
          by_cases h2 : r'.floor_price.1 = 0 ∨ r'.best_offer.1 = 0
          · rw [if_pos h2] at h; exact ih (i + 1) r h
          · rw [if_neg h2] at h
            cases h
            push_neg at h1 h2
            simp [degenerate, h1.1, h1.2, h2.1, h2.2]

theorem prices_changed_snap (cur lastS : Snapshot) :
    prices_changed cur (snapJson lastS) =
      some (decide (cur.floor_price ≠ lastS.floor_price ∨
                    cur.best_offer ≠ lastS.best_offer)) := by
  by_cases hf : cur.floor_price = lastS.floor_price <;>
    by_cases hb : cur.best_offer = lastS.best_offer <;>
      simp +decide [prices_changed, snapJson, getItem, dictGet, pyEqStr,
        floorKey, offerKey, hf, hb]

/-! ### Character and digit-list lemmas -/

theorem isPyDigit_cases {ch : Char} (h : isPyDigit ch = true) :
    ch = '0' ∨ ch = '1' ∨ ch = '2' ∨ ch = '3' ∨ ch = '4' ∨ ch = '5' ∨ ch = '6' ∨
    ch = '7' ∨ ch = '8' ∨ ch = '9' := by
  simpa [isPyDigit, List.contains, beq_iff_eq, or_assoc] using h

theorem digitOrDot_cases {ch : Char} (h : (isPyDigit ch || ch == '.') = true) :
    isPyDigit ch = true ∨ ch = '.' := by
  rcases Bool.or_eq_true _ _ |>.mp h with h | h
  · exact Or.inl h
  · exact Or.inr (by simpa [beq_iff_eq] using h)

theorem digitOrDot_not_space {ch : Char} (h : (isPyDigit ch || ch == '.') = true) :
    isPySpace ch = false := by
  rcases digitOrDot_cases h with h | h
  · rcases isPyDigit_cases h with h|h|h|h|h|h|h|h|h|h <;> subst h <;> rfl
  · subst h; rfl

theorem digitOrDot_not_e {ch : Char} (h : (isPyDigit ch || ch == '.') = true) :
    (ch == 'e' || ch == 'E') = false := by
  rcases digitOrDot_cases h with h | h
  · rcases isPyDigit_cases h with h|h|h|h|h|h|h|h|h|h <;> subst h <;> rfl
  · subst h; rfl

theorem digitOrDot_ne_sign {ch : Char} (h : (isPyDigit ch || ch == '.') = true) :
    ch ≠ '+' ∧ ch ≠ '-' := by
  constructor <;> intro hEq <;> subst hEq <;> exact absurd h (by decide)

theorem digitOrDot_ne_comma {ch : Char} (h : (isPyDigit ch || ch == '.') = true) :
    ch ≠ ',' := by
  intro hEq; subst hEq; exact absurd h (by decide)

theorem digitVal_le_nine {ch : Char} (h : isPyDigit ch = true) : digitVal ch ≤ 9 := by
  rcases isPyDigit_cases h with h|h|h|h|h|h|h|h|h|h <;> subst h <;> decide

theorem digitChar_val {d : ℕ} (hd : d < 10) :
    isPyDigit (Nat.digitChar d) = true ∧ digitVal (Nat.digitChar d) = d := by
  interval_cases d <;> exact ⟨rfl, rfl⟩

theorem digitsVal_nil : digitsVal [] = 0 := rfl

theorem digitsValAux_eq (l : Str) : ∀ a, digitsValAux a l = a * 10 ^ l.length + digitsVal l := by
  induction l with
  | nil =>
      intro a
      have h1 : digitsValAux a [] = a := rfl
      rw [h1, digitsVal_nil]
      simp
  | cons c t ih =>
      intro a
      have h1 : digitsValAux a (c :: t) = digitsValAux (10 * a + digitVal c) t := rfl
      have h2 : digitsVal (c :: t) = digitsValAux (10 * 0 + digitVal c) t := rfl
      rw [h1, ih, h2, ih]
      simp only [List.length_cons, pow_succ]
      ring

theorem digitsVal_cons (c : Char) (t : Str) :
    digitsVal (c :: t) = digitVal c * 10 ^ t.length + digitsVal t := by
  have h2 : digitsVal (c :: t) = digitsValAux (10 * 0 + digitVal c) t := rfl
  rw [h2, digitsValAux_eq]
  ring

theorem digitsVal_append_singleton (l : Str) (c : Char) :
    digitsVal (l ++ [c]) = 10 * digitsVal l + digitVal c := by
  induction l with
  | nil =>
      have h1 : digitsVal [c] = digitsValAux (10 * 0 + digitVal c) [] := rfl
      have h2 : digitsValAux (10 * 0 + digitVal c) [] = 10 * 0 + digitVal c := rfl
      simp only [List.nil_append, h1, h2, digitsVal_nil]
  | cons a t ih =>
      rw [List.cons_append, digitsVal_cons, ih, digitsVal_cons]
      simp only [List.length_append, List.length_singleton, pow_succ, pow_add]
      ring

theorem digitsVal_lt (l : Str) (h : l.all isPyDigit = true) :
    digitsVal l < 10 ^ l.length := by
  induction l with
  | nil => rw [digitsVal_nil]; simp
  | cons c t ih =>
      rw [List.all_cons, Bool.and_eq_true] at h
      have h1 := digitVal_le_nine h.1
      have h2 := ih h.2
      rw [digitsVal_cons]
      have h3 : 10 ^ (c :: t).length = 10 * 10 ^ t.length := by
        rw [List.length_cons, pow_succ]; ring
      rw [h3]
      nlinarith

theorem natDigits_spec (n : ℕ) :
    (natDigits n).all isPyDigit = true ∧ natDigits n ≠ [] ∧ digitsVal (natDigits n) = n := by
  induction n using Nat.strong_induction_on with
  | _ n ih =>
      by_cases h : n < 10
      · rw [natDigits, dif_pos h]
        refine ⟨by simp [(digitChar_val h).1], by simp, ?_⟩
        have h1 : digitsVal [Nat.digitChar n] = digitsValAux (10 * 0 + digitVal (Nat.digitChar n)) [] := rfl
        have h2 : digitsValAux (10 * 0 + digitVal (Nat.digitChar n)) [] =
            10 * 0 + digitVal (Nat.digitChar n) := rfl
        rw [h1, h2, (digitChar_val h).2]
        omega
      · rw [natDigits, dif_neg h]
        have hlt : n / 10 < n := Nat.div_lt_self (by omega) (by omega)
        obtain ⟨ha, hb, hc⟩ := ih (n / 10) hlt
        have hd : n % 10 < 10 := Nat.mod_lt _ (by omega)
        refine ⟨?_, by simp, ?_⟩
        · rw [List.all_append]
          simp [ha, (digitChar_val hd).1]
        · rw [digitsVal_append_singleton, hc, (digitChar_val hd).2]
          omega

/-! ### String scanning lemmas -/

theorem splitOnceP_cons (p : Char → Bool) (c : Char) (t : Str) :
    splitOnceP p (c :: t) =
      if p c then ([], some t) else (c :: (splitOnceP p t).1, (splitOnceP p t).2) := rfl

theorem splitOnceP_of_all_false (p : Char → Bool) :
    ∀ s : Str, (∀ ch ∈ s, p ch = false) → splitOnceP p s = (s, none) := by
  intro s
  induction s with
  | nil => intro _; rfl
  | cons c t ih =>
      intro h
      rw [splitOnceP_cons, if_neg (by simp [h c (by simp)]),
        ih (fun ch hch => h ch (by simp [hch]))]

theorem splitOnceP_append (p : Char → Bool) (sep : Char) (B : Str) (hsep : p sep = true) :
    ∀ A : Str, (∀ ch ∈ A, p ch = false) →
      splitOnceP p (A ++ sep :: B) = (A, some B) := by
  intro A
  induction A with
  | nil => intro _; rw [List.nil_append, splitOnceP_cons, if_pos hsep]
  | cons c t ih =>
      intro h
      rw [List.cons_append, splitOnceP_cons, if_neg (by simp [h c (by simp)]),
        ih (fun ch hch => h ch (by simp [hch]))]

theorem splitOnceP_none_inv (p : Char → Bool) :
    ∀ s a, splitOnceP p s = (a, none) → s = a ∧ ∀ ch ∈ a, p ch = false := by
  intro s
  induction s with
  | nil =>
      intro a h
      have : ([] : Str) = a := congrArg Prod.fst h
      subst this
      exact ⟨rfl, by simp⟩
  | cons c t ih =>
      intro a h
      rw [splitOnceP_cons] at h
      by_cases hc : p c
      · rw [if_pos hc] at h
        exact absurd (congrArg Prod.snd h) (by simp)
      · rw [if_neg hc] at h
        rcases hq : splitOnceP p t with ⟨a', o'⟩
        rw [hq] at h
        have ha : c :: a' = a := congrArg Prod.fst h
        have ho : o' = none := congrArg Prod.snd h
        subst ho
        obtain ⟨ht, hall⟩ := ih a' hq
        subst ht
        subst ha
        refine ⟨rfl, ?_⟩
        intro ch hch
        rcases List.mem_cons.mp hch with hch | hch
        · subst hch; simpa using hc
        · exact hall ch hch

theorem splitOnceP_some_inv (p : Char → Bool) :
    ∀ s a b, splitOnceP p s = (a, some b) →
      ∃ ch, s = a ++ ch :: b ∧ p ch = true ∧ ∀ ch' ∈ a, p ch' = false := by
  intro s
  induction s with
  | nil =>
      intro a b h
      have h0 : splitOnceP p ([] : Str) = (([] : Str), (none : Option Str)) := rfl
      rw [h0] at h
      exact absurd (congrArg Prod.snd h) (by simp)
  | cons c t ih =>
      intro a b h
      rw [splitOnceP_cons] at h
      by_cases hc : p c
      · rw [if_pos hc] at h
        have ha : ([] : Str) = a := congrArg Prod.fst h
        have hb : some t = some b := congrArg Prod.snd h
        subst ha
        refine ⟨c, ?_, hc, by simp⟩
        simpa using (Option.some.injEq _ _ ▸ hb :)
      · rw [if_neg hc] at h
        rcases hq : splitOnceP p t with ⟨a', o'⟩
        rw [hq] at h
        have ha : c :: a' = a := congrArg Prod.fst h
        have ho : o' = some b := congrArg Prod.snd h
        subst ho
        obtain ⟨ch, ht, hp, hall⟩ := ih a' b hq
        subst ha
        refine ⟨ch, by rw [List.cons_append, ht], hp, ?_⟩
        intro ch' hch'
        rcases List.mem_cons.mp hch' with hch' | hch'
        · subst hch'; simpa using hc
        · exact hall ch' hch'

theorem dropWhile_of_all_false (p : Char → Bool) (s : Str)
    (h : ∀ ch ∈ s, p ch = false) : s.dropWhile p = s := by
  cases s with
  | nil => rfl
  | cons c t => rw [List.dropWhile_cons, if_neg (by simp [h c (by simp)])]

theorem stripWs_of_noWs (s : Str) (h : ∀ ch ∈ s, isPySpace ch = false) : stripWs s = s := by
  unfold stripWs
  rw [dropWhile_of_all_false _ _ h,
    dropWhile_of_all_false _ _ (fun ch hch => h ch (List.mem_reverse.mp hch)),
    List.reverse_reverse]

theorem stripSign_of_head_ne (s : Str)
    (h : ∀ ch, s.head? = some ch → ch ≠ '+' ∧ ch ≠ '-') : stripSign s = (1, s) := by
  cases s with
  | nil => rfl
  | cons c t =>
      have hc := h c rfl
      have h1 : stripSign (c :: t) =
          if c = '+' then ((1 : ℚ), t) else if c = '-' then ((-1 : ℚ), t) else (1, c :: t) := rfl
      rw [h1, if_neg hc.1, if_neg hc.2]

theorem pySplitAux_nil (cur : Str) :
    pySplitAux cur [] = if cur.isEmpty then [] else [cur.reverse] := rfl

theorem pySplitAux_cons (cur : Str) (c : Char) (rest : Str) :
    pySplitAux cur (c :: rest) =
      if isPySpace c then
        (if cur.isEmpty then pySplitAux [] rest else cur.reverse :: pySplitAux [] rest)
      else pySplitAux (c :: cur) rest := rfl

theorem pySplitAux_append : ∀ n : Str, (∀ ch ∈ n, isPySpace ch = false) →
    ∀ (cur s : Str), pySplitAux cur (n ++ s) = pySplitAux (n.reverse ++ cur) s := by
  intro n
  induction n with
  | nil => intro _ cur s; simp
  | cons c t ih =>
      intro hn cur s
      rw [List.cons_append, pySplitAux_cons, if_neg (by simp [hn c (by simp)]),
        ih (fun ch hch => hn ch (by simp [hch])) (c :: cur) s]
      congr 1
      simp

theorem pySplitAux_single (c : Str) (hc : ∀ ch ∈ c, isPySpace ch = false) (hcne : c ≠ []) :
    pySplitAux [] c = [c] := by
  have h := pySplitAux_append c hc [] []
  rw [List.append_nil, List.append_nil] at h
  rw [h, pySplitAux_nil, if_neg (by simp [hcne]), List.reverse_reverse]

theorem pySplit_pair (n c : Str)
    (hn : ∀ ch ∈ n, isPySpace ch = false) (hnne : n ≠ [])
    (hc : ∀ ch ∈ c, isPySpace ch = false) (hcne : c ≠ []) :
    pySplit (n ++ ' ' :: c) = [n, c] := by
  unfold pySplit
  rw [pySplitAux_append n hn [] (' ' :: c), List.append_nil, pySplitAux_cons,
    if_pos (by decide), if_neg (by simp [hnne]), List.reverse_reverse,
    pySplitAux_single c hc hcne]

theorem replaceComma_of_no_comma : ∀ s : Str, (∀ ch ∈ s, ch ≠ ',') → replaceComma s = s := by
  intro s h
  unfold replaceComma
  calc s.map (fun c => if c = ',' then '.' else c) = s.map id :=
        List.map_congr_left (fun a ha => by simp [h a ha])
    _ = s := List.map_id s

/-! ### Parsing lemmas -/

theorem pyDigit_not_dot {ch : Char} (h : isPyDigit ch = true) : (ch == '.') = false := by
  rcases isPyDigit_cases h with h|h|h|h|h|h|h|h|h|h <;> subst h <;> rfl

theorem parseUDec_of_int_frac {ip fp : Str} (hip : ip.all isPyDigit = true)
    (hfp : fp.all isPyDigit = true) (hne : ip ≠ [] ∨ fp ≠ []) (hnd : ¬ '.' ∈ fp) :
    parseUDec (ip ++ '.' :: fp) =
      some ((digitsVal ip : ℚ) + (digitsVal fp : ℚ) / 10 ^ fp.length) := by
  unfold parseUDec
  rw [splitOnceP_append _ '.' fp rfl ip
    (fun ch hch => pyDigit_not_dot (List.all_eq_true.mp hip ch hch))]
  dsimp only
  rw [if_pos ⟨hne, hip, hfp, hnd⟩]

theorem parseUDec_of_digits {ip : Str} (hip : ip.all isPyDigit = true) (hne : ip ≠ []) :
    parseUDec ip = some ((digitsVal ip : ℚ)) := by
  unfold parseUDec
  rw [splitOnceP_of_all_false _ ip
    (fun ch hch => pyDigit_not_dot (List.all_eq_true.mp hip ch hch))]
  dsimp only
  rw [if_pos ⟨hne, hip⟩]

theorem parseUDec_props (n : Str) (q : ℚ) (h : parseUDec n = some q) :
    (∀ ch ∈ n, (isPyDigit ch || ch == '.') = true) ∧ n ≠ [] ∧ 0 ≤ q ∧
    ∃ (L : ℕ) (m : ℤ), q * 10 ^ L = (m : ℚ) := by
  unfold parseUDec at h
  rcases hsp : splitOnceP (fun c => c == '.') n with ⟨ip, o⟩
  rw [hsp] at h
  cases o with
  | none =>
      dsimp only at h
      split at h
      case isFalse => exact absurd h (by simp)
      case isTrue hcond =>
        obtain ⟨hne, hip⟩ := hcond
        have hq : (digitsVal ip : ℚ) = q := by simpa using h
        obtain ⟨hn, hnd⟩ := splitOnceP_none_inv _ n ip hsp
        subst hn
        refine ⟨?_, hne, ?_, 0, digitsVal n, ?_⟩
        · intro ch hch
          simp [List.all_eq_true.mp hip ch hch]
        · rw [← hq]; positivity
        · rw [← hq]; push_cast; ring
  | some fp =>
      dsimp only at h
      split at h
      case isFalse => exact absurd h (by simp)
      case isTrue hcond =>
        obtain ⟨hne, hip, hfp, hnd⟩ := hcond
        have hq : (digitsVal ip : ℚ) + (digitsVal fp : ℚ) / 10 ^ fp.length = q := by
          simpa using h
        obtain ⟨ch, hn, hp, hall⟩ := splitOnceP_some_inv _ n ip fp hsp
        have hdot : ch = '.' := by simpa using hp
        subst hdot
        subst hn
        refine ⟨?_, by simp, ?_, fp.length, digitsVal ip * 10 ^ fp.length + digitsVal fp, ?_⟩
        · intro c hc
          rcases List.mem_append.mp hc with hc | hc
          · simp [List.all_eq_true.mp hip c hc]
          · rcases List.mem_cons.mp hc with hc | hc
            · simp [hc]
            · simp [List.all_eq_true.mp hfp c hc]
        · rw [← hq]; positivity
        · rw [← hq]
          push_cast
          field_simp

theorem pyFloat_eq_parseUDec (s : Str)
    (hs : ∀ ch ∈ s, (isPyDigit ch || ch == '.') = true) :
    pyFloat s = parseUDec s := by
  unfold pyFloat
  rw [stripWs_of_noWs s (fun ch hch => digitOrDot_not_space (hs ch hch))]
  rw [stripSign_of_head_ne s (by
    intro ch hch
    cases s with
    | nil => simp at hch
    | cons c t =>
        have : c = ch := by simpa using hch
        subst this
        exact digitOrDot_ne_sign (hs c (by simp)))]
  dsimp only
  rw [splitOnceP_of_all_false _ s (fun ch hch => digitOrDot_not_e (hs ch hch))]
  dsimp only
  cases hp : parseUDec s <;> simp [hp]

theorem parse_price_string_pair (n c : Str) (q : ℚ)
    (hnd : ∀ ch ∈ n, (isPyDigit ch || ch == '.') = true) (hnne : n ≠ [])
    (hq : pyFloat n = some q)
    (hc : ∀ ch ∈ c, isPySpace ch = false) (hcne : c ≠ []) :
    parse_price_string (n ++ ' ' :: c) = (q, c) := by
  unfold parse_price_string
  rw [if_neg ?hna]
  case hna =>
    intro hEq
    have hna : nASentinel = ['N', '/', 'A'] := rfl
    rw [hna] at hEq
    cases n with
    | nil => exact hnne rfl
    | cons ch t =>
        rw [List.cons_append] at hEq
        have h1 : ch = 'N' := (List.cons.injEq _ _ _ _ ▸ hEq :).1
        have h2 := hnd ch (by simp)
        rw [h1] at h2
        exact absurd h2 (by decide)
  rw [pySplit_pair n c (fun ch hch => digitOrDot_not_space (hnd ch hch)) hnne hc hcne]
  dsimp only
  rw [replaceComma_of_no_comma n (fun ch hch => digitOrDot_ne_comma (hnd ch hch)), hq]

/-! ### Rendering lemmas -/

theorem fracAux_succ (fuel : ℕ) (r : ℚ) :
    fracAux (fuel + 1) r = if r = 0 then []
      else Nat.digitChar (⌊10 * r⌋).toNat :: fracAux fuel (10 * r - (⌊10 * r⌋ : ℚ)) := rfl

theorem fracAux_zero (fuel : ℕ) : fracAux fuel 0 = [] := by
  cases fuel with
  | zero => rfl
  | succ f => rw [fracAux_succ, if_pos rfl]

theorem fracAux_spec : ∀ (k fuel : ℕ) (r : ℚ), k ≤ fuel → 0 ≤ r → r < 1 →
    (∃ m : ℤ, r * 10 ^ k = (m : ℚ)) →
    (fracAux fuel r).all isPyDigit = true ∧
    (digitsVal (fracAux fuel r) : ℚ) / 10 ^ (fracAux fuel r).length = r := by
  intro k
  induction k with
  | zero =>
      intro fuel r _ h0 h1 hex
      obtain ⟨m, hm⟩ := hex
      rw [pow_zero, mul_one] at hm
      have hge : (0 : ℤ) ≤ m := by rw [hm] at h0; exact_mod_cast h0
      have hlt : m < 1 := by rw [hm] at h1; exact_mod_cast h1
      have hr0 : r = 0 := by
        rw [hm, show m = 0 by omega]
        norm_num
      subst hr0
      rw [fracAux_zero]
      exact ⟨rfl, by rw [digitsVal_nil]; norm_num⟩
  | succ k ih =>
      intro fuel r hk h0 h1 hex
      by_cases hr : r = 0
      · subst hr
        rw [fracAux_zero]
        exact ⟨rfl, by rw [digitsVal_nil]; norm_num⟩
      · obtain ⟨m, hm⟩ := hex
        cases fuel with
        | zero => omega
        | succ f =>
            rw [fracAux_succ, if_neg hr]
            have hd0 : 0 ≤ ⌊10 * r⌋ := Int.floor_nonneg.mpr (by positivity)
            have hd9 : ⌊10 * r⌋ < 10 := Int.floor_lt.mpr (by push_cast; nlinarith)
            have hdn : (⌊10 * r⌋).toNat < 10 := by omega
            have hcast : (((⌊10 * r⌋).toNat : ℕ) : ℚ) = ((⌊10 * r⌋ : ℤ) : ℚ) := by
              exact_mod_cast congrArg (fun z : ℤ => (z : ℚ)) (Int.toNat_of_nonneg hd0)
            have hr'0 : 0 ≤ 10 * r - (⌊10 * r⌋ : ℚ) := by
              rw [Int.self_sub_floor]; exact Int.fract_nonneg _
            have hr'1 : 10 * r - (⌊10 * r⌋ : ℚ) < 1 := by
              rw [Int.self_sub_floor]; exact Int.fract_lt_one _
            have hex' : ∃ m' : ℤ, (10 * r - (⌊10 * r⌋ : ℚ)) * 10 ^ k = (m' : ℚ) := by
              refine ⟨m - ⌊10 * r⌋ * 10 ^ k, ?_⟩
              push_cast
              rw [← hm]
              ring
            obtain ⟨iha, ihb⟩ := ih f (10 * r - (⌊10 * r⌋ : ℚ)) (by omega) hr'0 hr'1 hex'
            constructor
            · rw [List.all_cons, iha, (digitChar_val hdn).1]
              rfl
            · have hpow : ((10 : ℚ)) ^ (fracAux f (10 * r - (⌊10 * r⌋ : ℚ))).length ≠ 0 := by
                positivity
              have hV : (digitsVal (fracAux f (10 * r - (⌊10 * r⌋ : ℚ))) : ℚ) =
                  (10 * r - (⌊10 * r⌋ : ℚ)) *
                    10 ^ (fracAux f (10 * r - (⌊10 * r⌋ : ℚ))).length :=
                (div_eq_iff hpow).mp ihb
              have hlen : ((10 : ℚ)) ^ (Nat.digitChar (⌊10 * r⌋).toNat ::
                  fracAux f (10 * r - (⌊10 * r⌋ : ℚ))).length =
                  10 * 10 ^ (fracAux f (10 * r - (⌊10 * r⌋ : ℚ))).length := by
                rw [List.length_cons, pow_succ]; ring
              rw [digitsVal_cons, (digitChar_val hdn).2, hlen]
              push_cast
              rw [hcast, hV]
              rw [div_eq_iff (by positivity)]
              ring

theorem dvd_ten_pow_self {d : ℕ} (hd : d ≠ 0) {L : ℕ} (h : d ∣ 10 ^ L) : d ∣ 10 ^ d := by
  have h10d : (10 : ℕ) ^ d ≠ 0 := by positivity
  have h10L : (10 : ℕ) ^ L ≠ 0 := by positivity
  rw [← Nat.factorization_le_iff_dvd hd h10d]
  have hL := (Nat.factorization_le_iff_dvd hd h10L).mpr h
  rw [Finsupp.le_def] at hL ⊢
  intro p
  have hLp := hL p
  rw [Nat.factorization_pow] at hLp ⊢
  simp only [Finsupp.smul_apply, smul_eq_mul] at hLp ⊢
  by_cases hp : (10 : ℕ).factorization p = 0
  · rw [hp] at hLp ⊢
    omega
  · have h2 : d.factorization p < d := Nat.factorization_lt p hd
    calc d.factorization p ≤ d := le_of_lt h2
      _ ≤ d * (10 : ℕ).factorization p := Nat.le_mul_of_pos_right d (by omega)

theorem exists_int_mul_den_pow (r : ℚ) (L : ℕ) (m : ℤ) (h : r * 10 ^ L = (m : ℚ)) :
    ∃ m' : ℤ, r * 10 ^ r.den = (m' : ℚ) := by
  have h10 : ((10 : ℚ)) ^ L ≠ 0 := by positivity
  have hr : r = (m : ℚ) / (10 : ℚ) ^ L := by rw [eq_div_iff h10]; exact h
  have hdvd : (r.den : ℤ) ∣ (10 : ℤ) ^ L := by
    have hre : r = Rat.divInt m ((10 : ℤ) ^ L) := by
      rw [Rat.divInt_eq_div]; push_cast; exact hr
    rw [hre]
    exact Rat.den_dvd m ((10 : ℤ) ^ L)
  have hdvdn : r.den ∣ 10 ^ L := by
    have : ((r.den : ℤ)) ∣ (((10 : ℕ) ^ L : ℕ) : ℤ) := by push_cast; exact hdvd
    exact_mod_cast this
  obtain ⟨c, hc⟩ := dvd_ten_pow_self (Rat.den_ne_zero r) hdvdn
  refine ⟨r.num * c, ?_⟩
  have hden : ((r.den : ℚ)) ≠ 0 := by exact_mod_cast Rat.den_ne_zero r
  have hc' : ((10 : ℚ)) ^ r.den = (r.den : ℚ) * (c : ℚ) := by
    have hcast := congrArg (fun n : ℕ => (n : ℚ)) hc
    push_cast at hcast
    exact hcast
  have key : r * (r.den : ℚ) = (r.num : ℚ) :=
    ((div_eq_iff hden).mp (Rat.num_div_den r)).symm
  calc r * 10 ^ r.den = r * ((r.den : ℚ) * (c : ℚ)) := by rw [hc']
    _ = (r * (r.den : ℚ)) * (c : ℚ) := by ring
    _ = (r.num : ℚ) * (c : ℚ) := by rw [key]
    _ = ((r.num * c : ℤ) : ℚ) := by push_cast; ring

theorem pyStrFloat_core (q : ℚ) (h0 : 0 ≤ q)
    (hex : ∃ (L : ℕ) (m : ℤ), q * 10 ^ L = (m : ℚ)) :
    (∀ ch ∈ pyStrFloat q, (isPyDigit ch || ch == '.') = true) ∧ pyStrFloat q ≠ [] ∧
    parseUDec (pyStrFloat q) = some q := by
  obtain ⟨L, m, hm⟩ := hex
  have hnlt : ¬ q < 0 := not_lt.mpr h0
  rw [pyStrFloat, if_neg hnlt]
  have hfl0 : 0 ≤ ⌊q⌋ := Int.floor_nonneg.mpr h0
  have hfl : (((⌊q⌋).toNat : ℕ) : ℚ) = ((⌊q⌋ : ℤ) : ℚ) := by
    exact_mod_cast congrArg (fun z : ℤ => (z : ℚ)) (Int.toNat_of_nonneg hfl0)
  have hr0 : 0 ≤ q - (⌊q⌋ : ℚ) := by rw [Int.self_sub_floor]; exact Int.fract_nonneg _
  have hr1 : q - (⌊q⌋ : ℚ) < 1 := by rw [Int.self_sub_floor]; exact Int.fract_lt_one _
  have hexr : (q - (⌊q⌋ : ℚ)) * 10 ^ L = ((m - ⌊q⌋ * 10 ^ L : ℤ) : ℚ) := by
    push_cast
    rw [← hm]
    ring
  obtain ⟨m'', hm''⟩ := exists_int_mul_den_pow (q - (⌊q⌋ : ℚ)) L (m - ⌊q⌋ * 10 ^ L) hexr
  have hfd : fracDigits (q - (⌊q⌋ : ℚ)) = fracAux (q - (⌊q⌋ : ℚ)).den (q - (⌊q⌋ : ℚ)) := rfl
  obtain ⟨fa, fv⟩ := fracAux_spec (q - (⌊q⌋ : ℚ)).den (q - (⌊q⌋ : ℚ)).den (q - (⌊q⌋ : ℚ))
    le_rfl hr0 hr1 ⟨m'', hm''⟩
  rw [← hfd] at fa fv
  obtain ⟨nda, ndb, ndc⟩ := natDigits_spec (⌊q⌋).toNat
  have hndq : ((digitsVal (natDigits (⌊q⌋).toNat) : ℕ) : ℚ) = ((⌊q⌋ : ℤ) : ℚ) := by
    rw [ndc]; exact hfl
  by_cases hFe : (fracDigits (q - (⌊q⌋ : ℚ))).isEmpty = true
  · have hF : fracDigits (q - (⌊q⌋ : ℚ)) = [] := by simpa using hFe
    have hq : q = ((⌊q⌋ : ℤ) : ℚ) := by
      have h2 : q - ((⌊q⌋ : ℤ) : ℚ) = 0 := by
        rw [hF, digitsVal_nil] at fv
        rw [← fv]
        norm_num
      linarith
    rw [if_pos hFe]
    refine ⟨?_, by simp, ?_⟩
    · intro ch hch
      rcases List.mem_append.mp hch with hch | hch
      · simp [List.all_eq_true.mp nda ch hch]
      · rcases List.mem_cons.mp hch with hch | hch
        · simp [hch]
        · have : ch = '0' := by simpa using hch
          subst this
          rfl
    · rw [parseUDec_of_int_frac nda (by rfl) (Or.inl ndb) (by decide)]
      have hz : digitsVal ['0'] = 0 := by decide
      rw [hz]
      congr 1
      rw [hndq, ← hq]
      norm_num
  · have hFne : fracDigits (q - (⌊q⌋ : ℚ)) ≠ [] := by simpa using hFe
    rw [if_neg hFe]
    refine ⟨?_, by simp, ?_⟩
    · intro ch hch
      rcases List.mem_append.mp hch with hch | hch
      · simp [List.all_eq_true.mp nda ch hch]
      · rcases List.mem_cons.mp hch with hch | hch
        · simp [hch]
        · simp [List.all_eq_true.mp fa ch hch]
    · rw [parseUDec_of_int_frac nda fa (Or.inl ndb) (by
        intro hdot
        have := List.all_eq_true.mp fa '.' hdot
        exact absurd this (by decide))]
      congr 1
      have hval : (digitsVal (fracDigits (q - (⌊q⌋ : ℚ))) : ℚ) /
          10 ^ (fracDigits (q - (⌊q⌋ : ℚ))).length = q - (⌊q⌋ : ℚ) := fv
      rw [hndq, hval]
      ring

/-! ## Claims -/

/-- C2: if every one of the 5 retry attempts of `get_collection_prices` raises
or yields a pair with a degenerate component (`UNKNOWN` currency or zero
magnitude), the function returns `none`; and whenever it does return a result,
neither of the two prices is degenerate. -/
theorem claim_C2 :
    (∀ attempts : ℕ → AttemptOutcome,
        (∀ j, j < max_retries → attempts j = .raises ∨
            ∃ r, attempts j = .ok r ∧
              (degenerate r.floor_price = true ∨ degenerate r.best_offer = true)) →
        get_collection_prices attempts = none) ∧
    (∀ attempts r, get_collection_prices attempts = some r →
        degenerate r.floor_price = false ∧ degenerate r.best_offer = false) := by
  constructor
  · intro attempts h
    apply gcpAux_eq_none
    intro j h1 h2
    rcases h j (by simpa using h2) with hr | ⟨r, hr, hd⟩
    · exact Or.inl hr
    · exact Or.inr (Or.inr ⟨r, hr, hd⟩)
  · intro attempts r h
    exact gcpAux_eq_some attempts max_retries 0 r h

/-- C2 witness: five degenerate attempts give `none`; a successful run yields
a pair with no degenerate component. -/
theorem claim_C2_witness :
    get_collection_prices (fun _ => .ok ⟨(0, "ETH".toList), (1, "WETH".toList)⟩) = none ∧
    (degenerate ((1 : ℚ), "ETH".toList) = false ∧
     degenerate ((2 : ℚ) / 5, "WETH".toList) = false) := by
  constructor
  · exact claim_C2.1 _ (by
      intro j _
      exact Or.inr ⟨_, rfl, Or.inl (by with_unfolding_all decide)⟩)
  · exact claim_C2.2 (fun _ => .ok ⟨((1 : ℚ), "ETH".toList), ((2 : ℚ) / 5, "WETH".toList)⟩)
      ⟨((1 : ℚ), "ETH".toList), ((2 : ℚ) / 5, "WETH".toList)⟩ (by with_unfolding_all decide)

/-- C4: in a cycle where the fetched snapshot differs from last-known but
delivery returns `False`, neither the persisted file nor the in-memory
last-known snapshot changes (and no save happens). -/
theorem claim_C4 (env : Env) (deliver : Str → Bool) (st : MonState)
    (lastS cur : Snapshot)
    (hlast : st.last_prices = snapJson lastS)
    (hdiff : cur.floor_price ≠ lastS.floor_price ∨ cur.best_offer ≠ lastS.best_offer)
    (hsend : send_price_update env st.collection_slug cur.floor_price cur.best_offer
        (some st.last_prices) deliver = some false) :
    (run_cycle env deliver (some cur) st).state.file = st.file ∧
    (run_cycle env deliver (some cur) st).state.last_prices = st.last_prices ∧
    (run_cycle env deliver (some cur) st).saved = false := by
  have hch : prices_changed cur st.last_prices = some true := by
    rw [hlast, prices_changed_snap]; simp [hdiff]
  simp [run_cycle, hch, hsend]

/-- C4 witness. -/
theorem claim_C4_witness :
    (run_cycle ⟨some "t".toList, some "c".toList, none, none⟩ (fun _ => false)
        (some ⟨"0.44 ETH".toList, "0.41 WETH".toList⟩)
        ⟨"hypio".toList, .missing, defaultPrices⟩).state.file = FileState.missing ∧
    (run_cycle ⟨some "t".toList, some "c".toList, none, none⟩ (fun _ => false)
        (some ⟨"0.44 ETH".toList, "0.41 WETH".toList⟩)
        ⟨"hypio".toList, .missing, defaultPrices⟩).state.last_prices = defaultPrices := by
  have h := claim_C4 ⟨some "t".toList, some "c".toList, none, none⟩ (fun _ => false)
    ⟨"hypio".toList, .missing, defaultPrices⟩
    ⟨"0 ETH".toList, "0 ETH".toList⟩ ⟨"0.44 ETH".toList, "0.41 WETH".toList⟩
    rfl (by decide) (by with_unfolding_all decide)
  exact ⟨h.1, h.2.1⟩

/-- C5: in a cycle where the fetched snapshot differs from last-known and
delivery returns `True`, the persisted file afterwards holds exactly the new
snapshot (both fields) and the in-memory last-known becomes the new
snapshot. -/
theorem claim_C5 (env : Env) (deliver : Str → Bool) (st : MonState)
    (lastS cur : Snapshot)
    (hlast : st.last_prices = snapJson lastS)
    (hdiff : cur.floor_price ≠ lastS.floor_price ∨ cur.best_offer ≠ lastS.best_offer)
    (hsend : send_price_update env st.collection_slug cur.floor_price cur.best_offer
        (some st.last_prices) deliver = some true) :
    (run_cycle env deliver (some cur) st).state.file = .valid (snapJson cur) ∧
    (run_cycle env deliver (some cur) st).state.last_prices = snapJson cur ∧
    (run_cycle env deliver (some cur) st).saved = true := by
  have hch : prices_changed cur st.last_prices = some true := by
    rw [hlast, prices_changed_snap]; simp [hdiff]
  simp [run_cycle, hch, hsend, save_memory]

/-- C5 witness. -/
theorem claim_C5_witness :
    (run_cycle ⟨some "t".toList, some "c".toList, none, none⟩ (fun _ => true)
        (some ⟨"0.44 ETH".toList, "0.41 WETH".toList⟩)
        ⟨"hypio".toList, .missing, defaultPrices⟩).state.file =
      .valid (snapJson ⟨"0.44 ETH".toList, "0.41 WETH".toList⟩) ∧
    (run_cycle ⟨some "t".toList, some "c".toList, none, none⟩ (fun _ => true)
        (some ⟨"0.44 ETH".toList, "0.41 WETH".toList⟩)
        ⟨"hypio".toList, .missing, defaultPrices⟩).state.last_prices =
      snapJson ⟨"0.44 ETH".toList, "0.41 WETH".toList⟩ := by
  have h := claim_C5 ⟨some "t".toList, some "c".toList, none, none⟩ (fun _ => true)
    ⟨"hypio".toList, .missing, defaultPrices⟩
    ⟨"0 ETH".toList, "0 ETH".toList⟩ ⟨"0.44 ETH".toList, "0.41 WETH".toList⟩
    rfl (by decide) (by with_unfolding_all decide)
  exact ⟨h.1, h.2.1⟩

/-- C6: in a cycle where both fetched fields are textually equal to the
last-known fields, no notification is attempted, no save occurs, and the state
is unchanged. -/
theorem claim_C6 (env : Env) (deliver : Str → Bool) (st : MonState)
    (lastS cur : Snapshot)
    (hlast : st.last_prices = snapJson lastS)
    (hf : cur.floor_price = lastS.floor_price)
    (hb : cur.best_offer = lastS.best_offer) :
    run_cycle env deliver (some cur) st = ⟨false, false, false, false, st⟩ := by
  have hch : prices_changed cur st.last_prices = some false := by
    rw [hlast, prices_changed_snap]; simp [hf, hb]
  simp [run_cycle, hch]

/-- C6 witness. -/
theorem claim_C6_witness :
    run_cycle ⟨some "t".toList, some "c".toList, none, none⟩ (fun _ => true)
        (some ⟨"0 ETH".toList, "0 ETH".toList⟩)
        ⟨"hypio".toList, .missing, defaultPrices⟩ =
      ⟨false, false, false, false, ⟨"hypio".toList, .missing, defaultPrices⟩⟩ :=
  claim_C6 ⟨some "t".toList, some "c".toList, none, none⟩ (fun _ => true)
    ⟨"hypio".toList, .missing, defaultPrices⟩
    ⟨"0 ETH".toList, "0 ETH".toList⟩ ⟨"0 ETH".toList, "0 ETH".toList⟩ rfl rfl rfl

/-- C7 counterexample: a state file holding the syntactically valid JSON
document `"hello"` is neither missing nor malformed, yet `_load_memory`
returns it verbatim: the result is not a snapshot and not the default. -/
theorem claim_C7_counterexample :
    load_memory (.valid (.str "hello".toList)) = .str "hello".toList ∧
    isSnapshotJson (.str "hello".toList) = false ∧
    load_memory (.valid (.str "hello".toList)) ≠ defaultPrices := by
  refine ⟨rfl, rfl, ?_⟩
  simp [load_memory, defaultPrices, snapJson]

/-- C7 (amended): `_load_memory` never raises on a missing or undecodable
file and returns the default `0 ETH` snapshot there, but for a file holding
syntactically valid JSON it returns the parsed document verbatim, which is a
snapshot only when the file actually held one. -/
theorem claim_C7 :
    load_memory .missing = defaultPrices ∧
    load_memory .malformed = defaultPrices ∧
    ∀ j, load_memory (.valid j) = j :=
  ⟨rfl, rfl, fun _ => rfl⟩

/-- C8: the price parser is total, and on the `N/A` sentinel, a token count
other than two, or a first token that is not a float literal after
comma-to-period replacement, it returns `(0.0, "UNKNOWN")`. -/
theorem claim_C8 (s : Str)
    (h : s = nASentinel ∨ (pySplit s).length ≠ 2 ∨
         ∃ t rest, pySplit s = t :: rest ∧ pyFloat (replaceComma t) = none) :
    parse_price_string s = (0, unknownCurrency) := by
  unfold parse_price_string
  by_cases hna : s = nASentinel
  · simp [hna]
  · rw [if_neg hna]
    rcases h with h | h | ⟨t, rest, hps, hf⟩
    · exact absurd h hna
    · rcases hl : pySplit s with _ | ⟨t0, _ | ⟨t1, _ | ⟨t2, r⟩⟩⟩ <;> simp_all
    · rcases hl : pySplit s with _ | ⟨t0, _ | ⟨t1, _ | ⟨t2, r⟩⟩⟩ <;> simp_all

/-- C8 witness: the sentinel, a three-token string, and a two-token string
with non-numeric magnitude all map to the degenerate price. -/
theorem claim_C8_witness :
    parse_price_string "N/A".toList = (0, unknownCurrency) ∧
    parse_price_string "1 2 3".toList = (0, unknownCurrency) ∧
    parse_price_string "abc ETH".toList = (0, unknownCurrency) :=
  ⟨claim_C8 _ (Or.inl (by decide)),
   claim_C8 _ (Or.inr (Or.inl (by with_unfolding_all decide))),
   claim_C8 _ (Or.inr (Or.inr ⟨"abc".toList, ["ETH".toList],
     by with_unfolding_all decide, by with_unfolding_all decide⟩))⟩

/-- C1 counterexample: with the bot token absent from the environment the
claim predicts an immediate startup abort, but `PriceMonitor.__init__` never
reads the credentials: startup succeeds, a cycle with a successful fetch runs,
the notification attempt raises inside `TelegramService.__init__`, and the
loop's `except` catches it and leaves the state unchanged — the next cycle
retries. -/
theorem claim_C1_counterexample :
    creds_missing ⟨none, some "c".toList, none, none⟩ = true ∧
    price_monitor_init ⟨none, some "c".toList, none, none⟩ .missing =
      some ⟨"hypio".toList, .missing, defaultPrices⟩ ∧
    run_cycle ⟨none, some "c".toList, none, none⟩ (fun _ => true)
        (some ⟨"0.44 ETH".toList, "0.41 WETH".toList⟩)
        ⟨"hypio".toList, .missing, defaultPrices⟩ =
      ⟨true, false, false, true, ⟨"hypio".toList, .missing, defaultPrices⟩⟩ := by
  exact ⟨rfl, rfl, rfl⟩

/-- C1 (amended): when a chat credential is absent or empty, process startup
nevertheless succeeds (the credentials are only read when a notification is
attempted); in every cycle that detects a change, the notification attempt
raises, the exception is caught at the iteration boundary, and the state is
unchanged, so the failing send is retried on later cycles rather than
aborting the process. -/
theorem claim_C1 (e : Env) (fs : FileState)
    (hcred : creds_missing e = true) (hint : e.check_interval = none) :
    (∃ st, price_monitor_init e fs = some st) ∧
    (∀ deliver st cur, prices_changed cur st.last_prices = some true →
      run_cycle e deliver (some cur) st = ⟨true, false, false, true, st⟩) := by
  constructor
  · refine ⟨⟨(match e.opensea_collection_slug with | none => "hypio".toList | some s => s),
      fs, load_memory fs⟩, ?_⟩
    simp [price_monitor_init, load_config, hint]
  · intro deliver st cur hch
    have hsend : send_price_update e st.collection_slug cur.floor_price cur.best_offer
        (some st.last_prices) deliver = none := by
      simp [send_price_update, hcred]
    simp [run_cycle, hch, hsend]

/-- C1 witness. -/
theorem claim_C1_witness :
    (∃ st, price_monitor_init ⟨none, some "c".toList, none, none⟩ .missing = some st) ∧
    run_cycle ⟨none, some "c".toList, none, none⟩ (fun _ => false)
        (some ⟨"0.44 ETH".toList, "0.41 WETH".toList⟩)
        ⟨"hypio".toList, .missing, defaultPrices⟩ =
      ⟨true, false, false, true, ⟨"hypio".toList, .missing, defaultPrices⟩⟩ := by
  have h := claim_C1 ⟨none, some "c".toList, none, none⟩ .missing rfl rfl
  exact ⟨h.1, h.2 (fun _ => false) ⟨"hypio".toList, .missing, defaultPrices⟩
    ⟨"0.44 ETH".toList, "0.41 WETH".toList⟩ (by with_unfolding_all decide)⟩

/-- C3: per-field formatting renders the new price bold with no indicator when
the old display string is absent (empty) or textually identical; otherwise it
compares the numeric magnitudes parsed from the two leading tokens and appends
`+` exactly when new > old and `-` in every other case — including a numeric
tie between textually different strings. -/
theorem claim_C3 (new_p old_p : Str) :
    ((old_p = [] ∨ new_p = old_p) → format_change new_p (.str old_p) = some (bold new_p)) ∧
    (old_p ≠ [] → new_p ≠ old_p →
      ∀ nv ov, (pySplit new_p).head?.bind pyFloat = some nv →
               (pySplit old_p).head?.bind pyFloat = some ov →
        format_change new_p (.str old_p) =
          some (bold new_p ++ (if ov < nv then " +".toList else " -".toList))) := by
  constructor
  · intro h
    have hcond : (jFalsy (.str old_p) || pyEqStr new_p (.str old_p)) = true := by
      rcases h with h | h <;> simp [jFalsy, pyEqStr, h]
    simp [format_change, hcond]
  · intro h1 h2 nv ov hn ho
    have hcond : (jFalsy (.str old_p) || pyEqStr new_p (.str old_p)) = false := by
      cases old_p with
      | nil => exact absurd rfl h1
      | cons a l => simp [jFalsy, pyEqStr, beq_iff_eq, h2]
    rcases Option.bind_eq_some.mp hn with ⟨t0, ht0, hv0⟩
    rcases Option.bind_eq_some.mp ho with ⟨t1, ht1, hv1⟩
    by_cases hc : ov < nv <;>
      simp [format_change, hcond, ht0, hv0, ht1, hv1, jAsStr, hc]

/-- C3 witness: a rise gets `+`, a numeric tie with a different string gets
`-`, and a textually identical string gets no indicator. -/
theorem claim_C3_witness :
    format_change "0.44 ETH".toList (.str "0.40 ETH".toList) =
      some ("<b>0.44 ETH</b> +".toList) ∧
    format_change "0.40 ETH".toList (.str "0.400 ETH".toList) =
      some ("<b>0.40 ETH</b> -".toList) ∧
    format_change "0.40 ETH".toList (.str "0.40 ETH".toList) =
      some ("<b>0.40 ETH</b>".toList) := by
  refine ⟨?_, ?_, ?_⟩
  · have h := (claim_C3 "0.44 ETH".toList "0.40 ETH".toList).2 (by decide) (by decide)
      ((44 : ℚ) / 100) ((40 : ℚ) / 100)
      (by with_unfolding_all decide) (by with_unfolding_all decide)
    rw [h, if_pos (by norm_num)]
    with_unfolding_all decide
  · have h := (claim_C3 "0.40 ETH".toList "0.400 ETH".toList).2 (by decide) (by decide)
      ((40 : ℚ) / 100) ((400 : ℚ) / 1000)
      (by with_unfolding_all decide) (by with_unfolding_all decide)
    rw [h, if_neg (by norm_num)]
    with_unfolding_all decide
  · exact (claim_C3 "0.40 ETH".toList "0.40 ETH".toList).1 (Or.inr rfl)

/-- C10: the per-field formatting is not total: an old display string that is
non-empty, differs from the new one, and whose leading token is not numeric —
reachable as last-known through a state file holding valid JSON with arbitrary
strings — makes `send_price_update` raise (modelled by `none`) instead of
returning a boolean. -/
theorem claim_C10 :
    ("abc ETH".toList : Str) ≠ [] ∧
    "abc ETH".toList ≠ "0.44 ETH".toList ∧
    (pySplit "abc ETH".toList).head?.bind pyFloat = none ∧
    load_memory (.valid (.obj [(floorKey, .str "abc ETH".toList),
        (offerKey, .str "0.41 WETH".toList)])) =
      .obj [(floorKey, .str "abc ETH".toList), (offerKey, .str "0.41 WETH".toList)] ∧
    send_price_update ⟨some "t".toList, some "c".toList, none, none⟩ "hypio".toList
        "0.44 ETH".toList "0.41 WETH".toList
        (some (.obj [(floorKey, .str "abc ETH".toList), (offerKey, .str "0.41 WETH".toList)]))
        (fun _ => true) = none := by
  exact ⟨by decide, by decide, by with_unfolding_all decide, rfl,
    by with_unfolding_all decide⟩

/-- C9: for every valid display string `"<n> <c>"` — a numeric magnitude
token `n` (an unsigned decimal accepted by the float parser) followed by a
currency token `c` (nonempty, whitespace-free) — parsing yields exactly the
magnitude and currency, and re-formatting the parsed price with
`_format_price` and parsing again reproduces the numeric magnitude exactly
(the rational model is exact where the float is) and the original currency
token. -/
theorem claim_C9 (n c : Str) (q : ℚ) (hn : parseUDec n = some q)
    (hcne : c ≠ []) (hcws : ∀ ch ∈ c, isPySpace ch = false) :
    parse_price_string (n ++ ' ' :: c) = (q, c) ∧
    parse_price_string (format_price (q, c)) = (q, c) := by
  obtain ⟨hnd, hnne, hq0, hex⟩ := parseUDec_props n q hn
  have hqf : pyFloat n = some q := by rw [pyFloat_eq_parseUDec n hnd, hn]
  constructor
  · exact parse_price_string_pair n c q hnd hnne hqf hcws hcne
  · obtain ⟨hall2, hne2, hp2⟩ := pyStrFloat_core q hq0 hex
    have hqf2 : pyFloat (pyStrFloat q) = some q := by
      rw [pyFloat_eq_parseUDec _ hall2, hp2]
    have hfmt : format_price (q, c) = pyStrFloat q ++ ' ' :: c := rfl
    rw [hfmt]
    exact parse_price_string_pair (pyStrFloat q) c q hall2 hne2 hqf2 hcws hcne

/-- C9 witness: the display string `0.44 ETH` parses to `(0.44, ETH)` and
survives the parse/format round trip. -/
theorem claim_C9_witness :
    parse_price_string ("0.44".toList ++ ' ' :: "ETH".toList) = ((44 : ℚ) / 100, "ETH".toList) ∧
    parse_price_string (format_price ((44 : ℚ) / 100, "ETH".toList)) =
      ((44 : ℚ) / 100, "ETH".toList) :=
  claim_C9 "0.44".toList "ETH".toList ((44 : ℚ) / 100)
    (by with_unfolding_all decide) (by decide) (by decide)
